import Mathlib

/-!
Verification of the `top-crates` manifest generator
(`src/top-crates/src/main.rs`).

The program builds a candidate list of crate names (popularity list plus
curated additions minus blacklist), selects the newest non-prerelease
version of each candidate, resolves transitive dependencies (external),
filters the blacklist out of the resolved set, materializes the packages,
sorts them by (name ascending, version descending), groups consecutive
equal names, assigns each package an exposed identifier (the crate name of
its first library target, suffixed with `_major_minor_patch` for all but
the newest version of a name), extracts feature overrides from embedded
playground metadata, and emits a dependency map plus an index list.

Machine integers of the source (`u64` version components) are modelled as
`Nat`: the source never performs arithmetic on them, only comparison and
formatting, so overflow cannot occur.
-/

namespace TopCratesModel

/-! ### Semantic versions (the `semver` crate as used by cargo) -/

/-- A pre-release identifier: numeric identifiers sort below alphanumeric
ones, numerics compare numerically, alphanumerics lexicographically
(the derived `Ord` of `semver::Identifier`). -/
inductive SemVerId where
  | num (n : Nat)
  | alpha (s : String)
deriving DecidableEq, Repr

/-- Lexicographic comparison of lists given an element comparison
(`Ord for Vec<T>` in Rust: a strict prefix is less). -/
def listCmp (c : α → α → Ordering) : List α → List α → Ordering
  | [], [] => .eq
  | [], _ :: _ => .lt
  | _ :: _, [] => .gt
  | a :: as, b :: bs => (c a b).then (listCmp c as bs)

/-- Comparison of characters by code point (Rust compares UTF-8 bytes;
byte order of UTF-8 coincides with code-point order). -/
def chCmp (a b : Char) : Ordering := compare a.toNat b.toNat

/-- Byte-lexicographic string comparison (`Ord for str`). -/
def strCmp (a b : String) : Ordering := listCmp chCmp a.data b.data

/-- Comparison of `semver::Identifier`: `Numeric < AlphaNumeric`. -/
def SemVerId.cmp : SemVerId → SemVerId → Ordering
  | .num a, .num b => compare a b
  | .num _, .alpha _ => .lt
  | .alpha _, .num _ => .gt
  | .alpha a, .alpha b => strCmp a b

/-- A semantic version. Build metadata is ignored by semver precedence and
is not modelled. -/
structure Version where
  major : Nat
  minor : Nat
  patch : Nat
  pre : List SemVerId
deriving DecidableEq, Repr

/-- `Version::is_prerelease`: the pre-release identifier list is nonempty. -/
def Version.isPrerelease (v : Version) : Bool := !v.pre.isEmpty

/-- Pre-release list precedence: an empty list (a release) sorts above any
nonempty one; nonempty lists compare lexicographically. -/
def preCmp : List SemVerId → List SemVerId → Ordering
  | [], [] => .eq
  | [], _ :: _ => .gt
  | _ :: _, [] => .lt
  | a :: as, b :: bs => listCmp SemVerId.cmp (a :: as) (b :: bs)

/-- `Ord for semver::Version`: major, then minor, then patch, then the
pre-release rule. -/
def Version.cmp (a b : Version) : Ordering :=
  (compare a.major b.major).then <|
  (compare a.minor b.minor).then <|
  (compare a.patch b.patch).then <|
  preCmp a.pre b.pre

/-- Rendering of a pre-release identifier (`Display for Identifier`). -/
def SemVerId.render : SemVerId → String
  | .num n => toString n
  | .alpha s => s

/-- `Display for Version`: `major.minor.patch` with a `-`-prefixed
dot-separated pre-release list when nonempty. -/
def Version.render (v : Version) : String :=
  let base := s!"{v.major}.{v.minor}.{v.patch}"
  match v.pre with
  | [] => base
  | p :: ps =>
    base ++ "-" ++ (ps.foldl (fun acc i => acc ++ "." ++ i.render) p.render)

/-! ### Data model of the source -/

/-- Build-target kind: the source only distinguishes `TargetKind::Lib(_)`
from everything else. -/
inductive TargetKind where
  | lib
  | other
deriving DecidableEq, Repr

/-- A build target of a package: its kind and its derived crate name. -/
structure Target where
  kind : TargetKind
  crateName : String
deriving DecidableEq, Repr

/-- Embedded `[package.metadata.playground]` block, after successful
parsing with serde defaults `features=[]`, `default-features=true`,
`all-features=false`. -/
structure Metadata where
  features : List String
  default_features : Bool
  all_features : Bool
deriving DecidableEq, Repr

/-- A materialized package: name, exact version, declared build targets,
the summary's feature map (feature name to the rendered list of implied
feature values), and the optional playground metadata block (`none` both
when absent and when parsing failed, exactly the two cases in which the
source's `playground_metadata_features` returns `None` early). -/
structure Package where
  name : String
  version : Version
  targets : List Target
  summaryFeatures : List (String × List String)
  metadata : Option Metadata
deriving DecidableEq, Repr

/-- A registry summary used for version selection. -/
structure Summary where
  name : String
  version : Version
deriving DecidableEq, Repr

/-- `struct Modifications`: hand-curated changes to the crate list.
`additions` is declared `BTreeSet<String>` in the source; it is modelled
as the input list, deduplicated and sorted at iteration time. -/
structure Modifications where
  blacklist : List String
  additions : List String
deriving DecidableEq, Repr

/-- `Modifications::blacklisted`. -/
def Modifications.blacklisted (m : Modifications) (name : String) : Bool :=
  m.blacklist.any (fun n => n == name)

/-- `struct DependencySpec`. -/
structure DependencySpec where
  package : String
  version : String
  features : List String
  default_features : Bool
deriving DecidableEq, Repr

/-- `struct CrateInformation`: one index record. -/
structure CrateInformation where
  name : String
  version : String
  id : String
deriving DecidableEq, Repr

/-- A resolved package id `(name, exact version)` from the external
resolver. -/
structure ResolvedId where
  name : String
  version : Version
deriving DecidableEq, Repr

/-! ### Ordered-set model of `BTreeSet<String>` -/

/-- Insertion into a sorted duplicate-free list (`BTreeSet::insert`):
an element equal to a present one is dropped. -/
def sortedInsert (x : String) : List String → List String
  | [] => [x]
  | y :: ys =>
    match strCmp x y with
    | .lt => x :: y :: ys
    | .eq => y :: ys
    | .gt => y :: sortedInsert x ys

/-- Collecting a list of strings into a `BTreeSet<String>` and iterating
it back out in ascending order. -/
def toSortedSet (l : List String) : List String := l.foldr sortedInsert []

/-! ### Catalog builder -/

/-- `TopCrates::add_curated_crates`: the popularity-list names extended
with the iteration of the `additions` set (a `Vec::extend`, so names
already present in the popularity list are appended again). -/
def add_curated_crates (top : List String) (m : Modifications) : List String :=
  top ++ toSortedSet m.additions

/-- The candidate names actually processed by the summary loop of `main`:
the extended crate list with blacklisted names skipped. -/
def candidateNames (top : List String) (m : Modifications) : List String :=
  (add_curated_crates top m).filter (fun n => !m.blacklisted n)

/-! ### Version selector -/

/-- One step of `Iterator::max_by_key` on the version: `cmp::max_by`
returns its second argument unless the first is strictly greater, so the
later element wins ties. -/
def maxStep (acc : Option Summary) (s : Summary) : Option Summary :=
  match acc with
  | none => some s
  | some m => if Version.cmp m.version s.version = .gt then some m else some s

/-- `Iterator::max_by_key` on the version. -/
def maxByVersion (l : List Summary) : Option Summary :=
  l.foldl maxStep none

/-- The selection in `main`'s summary loop: filter out prereleases, take
the maximum by version. -/
def selectSummary (summaries : List Summary) : Option Summary :=
  maxByVersion (summaries.filter (fun s => !s.version.isPrerelease))

/-- The summary loop body including its fatal path: no viable version
panics with `Registry has no viable versions of {name}`. -/
def selectRoot (name : String) (summaries : List Summary) : Except String Summary :=
  match selectSummary summaries with
  | some s => .ok s
  | none => .error s!"Registry has no viable versions of {name}"

/-- The whole summary loop: one root summary per candidate; the first
candidate with no viable version aborts the run. -/
def buildRootSummaries (query : String → List Summary) :
    List String → Except String (List Summary)
  | [] => .ok []
  | name :: rest => do
    let s ← selectRoot name (query name)
    let ss ← buildRootSummaries query rest
    .ok (s :: ss)

/-! ### Grouping and disambiguation -/

/-- The first library target's crate name
(`targets().iter().flat_map(Lib => crate_name).next()`). -/
def crateNameOf (pkg : Package) : Option String :=
  (pkg.targets.filterMap (fun t =>
    match t.kind with
    | .lib => some t.crateName
    | .other => none)).head?

/-- The sort comparator of `main`:
`a.name().cmp(&b.name()).then(a.version().cmp(&b.version()).reverse())`. -/
def pkgCmp (a b : Package) : Ordering :=
  (strCmp a.name b.name).then (Version.cmp a.version b.version).swap

/-- The non-strict order induced by the comparator. -/
def pkgLE (a b : Package) : Prop := pkgCmp a b ≠ .gt

instance : DecidableRel pkgLE := fun a b => by
  unfold pkgLE; infer_instance

/-- `packages.sort_by(..)`: a stable sort by `pkgCmp` (Rust's `sort_by` is
stable; any stable sort computes the same list, here an insertion sort). -/
def sortPkgs (packages : List Package) : List Package :=
  List.insertionSort pkgLE packages

/-- `Itertools::group_by` on the package name: maximal runs of consecutive
packages sharing a name. -/
def groupByName (l : List Package) : List (List Package) :=
  l.foldr step []
where
  /-- Prepend one package to a run partition. -/
  step (p : Package) (acc : List (List Package)) : List (List Package) :=
    match acc with
    | (q :: g) :: gs =>
      if p.name = q.name then (p :: q :: g) :: gs else [p] :: (q :: g) :: gs
    | _ => [[p]]

/-! ### Feature extractor -/

/-- `playground_metadata_features`. `pkg.metadata = none` covers both an
absent metadata block and a parse failure, the two early-`None` paths of
the source. -/
def playground_metadata_features (pkg : Package) :
    Option (List String × Bool) :=
  match pkg.metadata with
  | none => none
  | some metadata =>
    let enabled_features : List String :=
      toSortedSet
        (if metadata.all_features then pkg.summaryFeatures.map Prod.fst
         else metadata.features)
    let enabled_features :=
      if metadata.default_features then
        match pkg.summaryFeatures.lookup "default" with
        | some default_feature_names =>
          default_feature_names.foldl (fun s f => s.erase f)
            (enabled_features.erase "default")
        | none => enabled_features
      else enabled_features
    if !enabled_features.isEmpty || !metadata.default_features then
      some (enabled_features, metadata.default_features)
    else
      none

/-! ### Entry construction -/

/-- One processed package: its exposed name, its dependency-map value and
its index record. -/
structure Entry where
  exposedName : String
  spec : DependencySpec
  info : CrateInformation
deriving DecidableEq, Repr

/-- The `_major_minor_patch` disambiguation suffix appended by
`format!("{}_{}_{}_{}", crate_name, major, minor, patch)`. -/
def versionSuffix (v : Version) : String :=
  "_" ++ toString v.major ++ "_" ++ toString v.minor ++ "_" ++ toString v.patch

/-- The body of `main`'s inner loop for one package, given the `first`
flag: fails with `{name} did not have a library` when the package has no
library target. -/
def processPackage (first : Bool) (pkg : Package) : Except String Entry :=
  match crateNameOf pkg with
  | none => .error s!"{pkg.name} did not have a library"
  | some crate_name =>
    let exposed_name :=
      if first then crate_name else crate_name ++ versionSuffix pkg.version
    let fd := (playground_metadata_features pkg).getD ([], true)
    .ok
      { exposedName := exposed_name
        spec :=
          { package := pkg.name
            version := pkg.version.render
            features := fd.1
            default_features := fd.2 }
        info :=
          { name := pkg.name
            version := pkg.version.render
            id := exposed_name } }

/-- The inner loop over one name-group, threading the `first` flag. -/
def processGroupAux (first : Bool) : List Package → Except String (List Entry)
  | [] => .ok []
  | pkg :: rest => do
    let e ← processPackage first pkg
    let es ← processGroupAux false rest
    .ok (e :: es)

/-- Processing one name-group: the first (newest) package keeps the bare
crate name, all later ones get the version suffix. -/
def processGroup (g : List Package) : Except String (List Entry) :=
  processGroupAux true g

/-- The outer `for` loop of `main`: process the name-groups in order,
concatenating their entries; a panic in any group aborts everything. -/
def processGroups : List (List Package) → Except String (List Entry)
  | [] => .ok []
  | g :: gs => do
    let es ← processGroup g
    let rest ← processGroups gs
    .ok (es ++ rest)

/-- The full grouping-and-synthesis stage of `main`: sort, group by name,
process every group in order. -/
def buildEntries (packages : List Package) : Except String (List Entry) :=
  processGroups (groupByName (sortPkgs packages))

/-! ### Output synthesis -/

/-- `BTreeMap::insert` on a sorted association list keyed by strings: an
equal key is overwritten in place. -/
def btreeInsert (k : String) (v : DependencySpec) :
    List (String × DependencySpec) → List (String × DependencySpec)
  | [] => [(k, v)]
  | (k0, v0) :: rest =>
    match strCmp k k0 with
    | .lt => (k, v) :: (k0, v0) :: rest
    | .eq => (k, v) :: rest
    | .gt => (k0, v0) :: btreeInsert k v rest

/-- The `dependencies` map, built by inserting every entry in processing
order. -/
def dependenciesMap (entries : List Entry) : List (String × DependencySpec) :=
  entries.foldl (fun m e => btreeInsert e.exposedName e.spec m) []

/-- The two output artifacts: the manifest's `dependencies` table and the
index list. -/
structure RunOutputs where
  dependencies : List (String × DependencySpec)
  index : List CrateInformation
deriving DecidableEq, Repr

/-- Everything `main` does after materialization and before writing the
two files; an error is a panic, which aborts before either artifact is
written. -/
def materializeOutputs (packages : List Package) : Except String RunOutputs := do
  let entries ← buildEntries packages
  .ok { dependencies := dependenciesMap entries, index := entries.map (·.info) }

/-- The post-resolution pipeline: the resolved set is filtered by the
blacklist, fetched, and materialized. -/
def keptIds (m : Modifications) (resolve : List ResolvedId) : List ResolvedId :=
  resolve.filter (fun id => !m.blacklisted id.name)

/-- The run from the resolver's output onward, with the package fetch as a
black box. -/
def runFromResolve (m : Modifications) (resolve : List ResolvedId)
    (fetch : ResolvedId → Package) : Except String RunOutputs :=
  materializeOutputs ((keptIds m resolve).map fetch)

/-! ### Serialization shape of a `DependencySpec` row -/

/-- The field names serde emits for one row of the `dependencies` table
under the given map key: `package` is skipped iff the string is empty
(`skip_serializing_if = "String::is_empty"` — the key plays no role),
`features` iff the list is empty, `default-features` iff the flag is true;
`version` is always written as `=<version>`. -/
def serializedFields (_key : String) (d : DependencySpec) :
    List (String × String) :=
  (if d.package.isEmpty then [] else [("package", d.package)]) ++
  [("version", "=" ++ d.version)] ++
  (if d.features.isEmpty then [] else [("features", String.intercalate "," d.features)]) ++
  (if d.default_features then [] else [("default-features", "false")])

/-- Strict string order. -/
def strLT (a b : String) : Prop := strCmp a b = .lt

/-- Adjacent groups in a run partition carry different names. -/
def diffNames (g1 g2 : List Package) : Prop :=
  ∀ p ∈ g1, ∀ r ∈ g2, p.name ≠ r.name

/-- All elements of a group share one name. -/
def constName (g : List Package) : Prop :=
  ∀ p ∈ g, ∀ r ∈ g, p.name = r.name

/-- Modelled from the spec (§4.5, also quoted by the claim): within a
group the first (highest-version) entry receives the bare canonical
build-target identifier, every subsequent entry the canonical identifier
followed by `_major_minor_patch` of its version. -/
def specGroupIds : List Package → List String
  | [] => []
  | p :: rest =>
    (crateNameOf p).getD "" ::
      rest.map (fun q => (crateNameOf q).getD "" ++ versionSuffix q.version)

/-! ### Concrete run data (used by witnesses and counterexamples) -/

/-- A release version literal. -/
def rel (a b c : Nat) : Version := ⟨a, b, c, []⟩

/-- Version 1.2.0 of crate `a`. -/
def wA12 : Package := ⟨"a", rel 1 2 0, [⟨.lib, "a"⟩], [], none⟩

/-- Version 1.1.0 of crate `a`. -/
def wA11 : Package := ⟨"a", rel 1 1 0, [⟨.lib, "a"⟩], [], none⟩

/-- The entry produced for `wA12` at the head of its group. -/
def wEntryA12 : Entry := ⟨"a", ⟨"a", "1.2.0", [], true⟩, ⟨"a", "1.2.0", "a"⟩⟩

/-- The entry produced for `wA11` behind `wA12`. -/
def wEntryA11 : Entry :=
  ⟨"a_1_1_0", ⟨"a", "1.1.0", [], true⟩, ⟨"a", "1.1.0", "a_1_1_0"⟩⟩

/-- A crate whose library target's crate name collides with another
crate's (hyphens become underscores in crate names). -/
def cxHyphen : Package := ⟨"foo-bar", rel 1 0 0, [⟨.lib, "foo_bar"⟩], [], none⟩

/-- The crate `foo_bar` itself. -/
def cxUnderscore : Package :=
  ⟨"foo_bar", rel 1 0 0, [⟨.lib, "foo_bar"⟩], [], none⟩

/-- The claim's sort order: name ascending, then version descending. -/
def nameAscVersionDesc (a b : Package) : Prop :=
  strCmp a.name b.name = .lt ∨
    (a.name = b.name ∧ Version.cmp b.version a.version ≠ .gt)

/-- The output of the run over `cxHyphen` and `cxUnderscore`: the two
index records share the id `foo_bar` and the dependencies map silently
collapsed to one row. -/
def cxOut : RunOutputs :=
  ⟨[("foo_bar", ⟨"foo_bar", "1.0.0", [], true⟩)],
   [⟨"foo-bar", "1.0.0", "foo_bar"⟩, ⟨"foo_bar", "1.0.0", "foo_bar"⟩]⟩

/-- Overrides blacklisting the crate `bad`. -/
def wMods : Modifications := ⟨["bad"], []⟩

/-- A resolved set in which `bad` occurs as a transitive dependency of
`good`. -/
def wResolve : List ResolvedId := [⟨"bad", rel 1 0 0⟩, ⟨"good", rel 1 0 0⟩]

/-- A name-preserving package fetch. -/
def wFetch (id : ResolvedId) : Package :=
  ⟨id.name, id.version, [⟨.lib, id.name⟩], [], none⟩

/-- The outputs of the run over `wResolve` with `wMods` and `wFetch`. -/
def wOut : RunOutputs :=
  ⟨[("good", ⟨"good", "1.0.0", [], true⟩)], [⟨"good", "1.0.0", "good"⟩]⟩

/-- A package with no library build target. -/
def w8NoLib : Package := ⟨"nolib", rel 1 0 0, [⟨.other, "nolib"⟩], [], none⟩

/-- A package with a non-library target first and two library targets. -/
def w10pkg : Package :=
  ⟨"p", rel 1 0 0, [⟨.other, "b"⟩, ⟨.lib, "x"⟩, ⟨.lib, "y"⟩], [], none⟩

/-- A package whose metadata enables the literal feature `default` while
the library declares no `default` feature group. -/
def c5NoGroup : Package :=
  ⟨"c", rel 1 0 0, [⟨.lib, "c"⟩], [], some ⟨["default"], true, false⟩⟩

/-- A package whose default-feature group implies `x` and whose metadata
enables `x` and `y` with default-features on. -/
def w5pkg : Package :=
  ⟨"c", rel 1 0 0, [⟨.lib, "c"⟩], [("default", ["x"]), ("x", []), ("y", [])],
    some ⟨["x", "y"], true, false⟩⟩

/-- Registry summaries for one crate: two releases and one pre-release
with the highest number. -/
def w3List : List Summary :=
  [⟨"x", rel 1 0 0⟩, ⟨"x", ⟨2, 0, 0, [.alpha "a"]⟩⟩, ⟨"x", rel 1 5 0⟩]

/-- The newest non-pre-release summary in `w3List`. -/
def w3Best : Summary := ⟨"x", rel 1 5 0⟩

/-- A registry returning only a pre-release for every crate. -/
def w3Query (_ : String) : List Summary := [⟨"y", ⟨2, 0, 0, [.alpha "a"]⟩⟩]

/-- A package whose crate name equals its package name. -/
def w7pkg : Package := ⟨"serde", rel 1 0 0, [⟨.lib, "serde"⟩], [], none⟩

/-- The entry produced for `w7pkg`. -/
def w7entry : Entry :=
  ⟨"serde", ⟨"serde", "1.0.0", [], true⟩, ⟨"serde", "1.0.0", "serde"⟩⟩

/-- A dependency row whose real package name equals its map key. -/
def w7spec : DependencySpec := ⟨"serde", "1.0.0", [], true⟩

/-! ### Generic comparator lemmas -/

lemma ordering_ne_gt {o : Ordering} : o ≠ .gt ↔ o = .lt ∨ o = .eq := by
  cases o <;> simp

lemma ordering_then_swap (o p : Ordering) :
    (o.then p).swap = o.swap.then p.swap := by
  cases o <;> rfl

lemma chCmp_swap (a b : Char) : chCmp a b = (chCmp b a).swap :=
  (Nat.compare_swap _ _).symm

lemma chCmp_eq_imp {a b : Char} (h : chCmp a b = .eq) : a = b := by
  apply Char.eq_of_val_eq
  apply UInt32.ext
  simpa [UInt32.toNat, chCmp, Nat.compare_eq_eq, Char.toNat] using h

lemma chCmp_lt_trans {a b c : Char} (h1 : chCmp a b = .lt)
    (h2 : chCmp b c = .lt) : chCmp a c = .lt := by
  simp only [chCmp, Nat.compare_eq_lt] at h1 h2 ⊢
  omega

lemma listCmp_swap (c : α → α → Ordering) (h : ∀ a b, c a b = (c b a).swap) :
    ∀ x y, listCmp c x y = (listCmp c y x).swap
  | [], [] => rfl
  | [], _ :: _ => rfl
  | _ :: _, [] => rfl
  | a :: as, b :: bs => by
    simp only [listCmp]
    rw [h a b, listCmp_swap c h as bs]
    cases c b a <;> rfl

lemma listCmp_eq_imp (c : α → α → Ordering)
    (h : ∀ a b, c a b = .eq → a = b) :
    ∀ x y, listCmp c x y = .eq → x = y
  | [], [], _ => rfl
  | [], _ :: _, he => by cases he
  | _ :: _, [], he => by cases he
  | a :: as, b :: bs, he => by
    simp only [listCmp, Ordering.then_eq_eq] at he
    rw [h a b he.1, listCmp_eq_imp c h as bs he.2]

lemma listCmp_lt_trans (c : α → α → Ordering)
    (heq : ∀ a b, c a b = .eq → a = b)
    (hlt : ∀ a b d, c a b = .lt → c b d = .lt → c a d = .lt) :
    ∀ x y z, listCmp c x y = .lt → listCmp c y z = .lt → listCmp c x z = .lt
  | [], [], _, h1, _ => by simp [listCmp] at h1
  | _ :: _, [], _, h1, _ => by simp [listCmp] at h1
  | [], _ :: _, [], _, h2 => by simp [listCmp] at h2
  | [], _ :: _, _ :: _, _, _ => rfl
  | _ :: _, _ :: _, [], _, h2 => by simp [listCmp] at h2
  | a :: as, b :: bs, d :: ds, h1, h2 => by
    simp only [listCmp, Ordering.then_eq_lt] at h1 h2 ⊢
    rcases h1 with h1 | ⟨h1e, h1t⟩
    · rcases h2 with h2 | ⟨h2e, h2t⟩
      · exact Or.inl (hlt a b d h1 h2)
      · exact Or.inl (heq b d h2e ▸ h1)
    · rcases h2 with h2 | ⟨h2e, h2t⟩
      · exact Or.inl (heq a b h1e ▸ h2)
      · exact Or.inr ⟨heq a b h1e ▸ h2e,
          listCmp_lt_trans c heq hlt as bs ds h1t h2t⟩

lemma cmp_gt_iff_lt {c : α → α → Ordering}
    (h : ∀ a b, c a b = (c b a).swap) {a b : α} :
    c a b = .gt ↔ c b a = .lt := by
  rw [h a b]
  cases c b a <;> simp [Ordering.swap]

/-! ### String comparison lemmas -/

lemma strCmp_swap (a b : String) : strCmp a b = (strCmp b a).swap :=
  listCmp_swap chCmp chCmp_swap a.data b.data

lemma strCmp_eq_imp {a b : String} (h : strCmp a b = .eq) : a = b := by
  cases a; cases b
  exact congrArg String.mk
    (listCmp_eq_imp chCmp (fun x y => chCmp_eq_imp) _ _ h)

lemma strCmp_refl (a : String) : strCmp a a = .eq := by
  have h := strCmp_swap a a
  cases hc : strCmp a a <;> simp [hc, Ordering.swap] at h ⊢

lemma strCmp_eq_iff {a b : String} : strCmp a b = .eq ↔ a = b :=
  ⟨strCmp_eq_imp, fun h => h ▸ strCmp_refl a⟩

lemma strCmp_lt_trans {a b c : String} (h1 : strCmp a b = .lt)
    (h2 : strCmp b c = .lt) : strCmp a c = .lt :=
  listCmp_lt_trans chCmp (fun _ _ => chCmp_eq_imp)
    (fun _ _ _ => chCmp_lt_trans) a.data b.data c.data h1 h2

/-! ### Pre-release identifier comparison lemmas -/

lemma semVerIdCmp_swap (a b : SemVerId) :
    SemVerId.cmp a b = (SemVerId.cmp b a).swap := by
  cases a <;> cases b
  · exact (Nat.compare_swap _ _).symm
  · rfl
  · rfl
  · exact strCmp_swap _ _

lemma semVerIdCmp_eq_imp {a b : SemVerId} (h : SemVerId.cmp a b = .eq) :
    a = b := by
  cases a <;> cases b <;> simp [SemVerId.cmp] at h ⊢
  · exact Nat.compare_eq_eq.mp h
  · exact strCmp_eq_imp h

lemma semVerIdCmp_lt_trans {a b c : SemVerId} (h1 : SemVerId.cmp a b = .lt)
    (h2 : SemVerId.cmp b c = .lt) : SemVerId.cmp a c = .lt := by
  cases a <;> cases b <;> cases c <;> simp [SemVerId.cmp] at h1 h2 ⊢
  · have := Nat.compare_eq_lt.mp h1
    have := Nat.compare_eq_lt.mp h2
    exact Nat.compare_eq_lt.mpr (by omega)
  · exact strCmp_lt_trans h1 h2

lemma preCmp_swap (a b : List SemVerId) : preCmp a b = (preCmp b a).swap := by
  cases a <;> cases b <;> simp [preCmp, Ordering.swap]
  exact listCmp_swap SemVerId.cmp semVerIdCmp_swap _ _

lemma preCmp_eq_imp {a b : List SemVerId} (h : preCmp a b = .eq) : a = b := by
  cases a <;> cases b <;> simp [preCmp] at h ⊢
  exact List.cons.injEq .. ▸
    (listCmp_eq_imp SemVerId.cmp (fun _ _ => semVerIdCmp_eq_imp) _ _ h)

lemma preCmp_lt_trans {a b c : List SemVerId} (h1 : preCmp a b = .lt)
    (h2 : preCmp b c = .lt) : preCmp a c = .lt := by
  cases a <;> cases b <;> cases c <;> simp [preCmp] at h1 h2 ⊢
  exact listCmp_lt_trans SemVerId.cmp (fun _ _ => semVerIdCmp_eq_imp)
    (fun _ _ _ => semVerIdCmp_lt_trans) _ _ _ h1 h2

/-! ### Version comparison lemmas -/

lemma versionCmp_swap (a b : Version) :
    Version.cmp a b = (Version.cmp b a).swap := by
  simp only [Version.cmp, ordering_then_swap, Nat.compare_swap]
  rw [preCmp_swap]

lemma versionCmp_eq_lt {a b : Version} :
    Version.cmp a b = .lt ↔
      a.major < b.major ∨ (a.major = b.major ∧
        (a.minor < b.minor ∨ (a.minor = b.minor ∧
          (a.patch < b.patch ∨ (a.patch = b.patch ∧
            preCmp a.pre b.pre = .lt))))) := by
  simp [Version.cmp, Ordering.then_eq_lt, Ordering.then_eq_eq,
    Nat.compare_eq_lt, Nat.compare_eq_eq]

lemma versionCmp_eq_eq {a b : Version} : Version.cmp a b = .eq ↔ a = b := by
  simp only [Version.cmp, Ordering.then_eq_eq, Nat.compare_eq_eq]
  constructor
  · rintro ⟨h1, h2, h3, h4⟩
    cases a; cases b
    simp_all
    exact preCmp_eq_imp h4
  · rintro rfl
    refine ⟨rfl, rfl, rfl, ?_⟩
    have h := preCmp_swap a.pre a.pre
    cases hc : preCmp a.pre a.pre <;> simp [hc, Ordering.swap] at h ⊢

lemma versionCmp_lt_trans {a b c : Version} (h1 : Version.cmp a b = .lt)
    (h2 : Version.cmp b c = .lt) : Version.cmp a c = .lt := by
  rw [versionCmp_eq_lt] at h1 h2 ⊢
  rcases h1 with h1 | ⟨e1, h1⟩
  · rcases h2 with h2 | ⟨e2, h2⟩
    · exact Or.inl (by omega)
    · exact Or.inl (by omega)
  · rcases h2 with h2 | ⟨e2, h2⟩
    · exact Or.inl (by omega)
    · refine Or.inr ⟨by omega, ?_⟩
      rcases h1 with h1 | ⟨e1m, h1⟩
      · rcases h2 with h2 | ⟨e2m, h2⟩
        · exact Or.inl (by omega)
        · exact Or.inl (by omega)
      · rcases h2 with h2 | ⟨e2m, h2⟩
        · exact Or.inl (by omega)
        · refine Or.inr ⟨by omega, ?_⟩
          rcases h1 with h1 | ⟨e1p, h1⟩
          · rcases h2 with h2 | ⟨e2p, h2⟩
            · exact Or.inl (by omega)
            · exact Or.inl (by omega)
          · rcases h2 with h2 | ⟨e2p, h2⟩
            · exact Or.inl (by omega)
            · exact Or.inr ⟨by omega, preCmp_lt_trans h1 h2⟩

lemma versionCmp_le_trans {a b c : Version} (h1 : Version.cmp a b ≠ .gt)
    (h2 : Version.cmp b c ≠ .gt) : Version.cmp a c ≠ .gt := by
  rw [ordering_ne_gt] at h1 h2 ⊢
  rcases h1 with h1 | h1
  · rcases h2 with h2 | h2
    · exact Or.inl (versionCmp_lt_trans h1 h2)
    · exact Or.inl (versionCmp_eq_eq.mp h2 ▸ h1)
  · rcases h2 with h2 | h2
    · exact Or.inl (versionCmp_eq_eq.mp h1 ▸ h2)
    · exact Or.inr (by rw [versionCmp_eq_eq] at h1 h2 ⊢; rw [h1, h2])

/-! ### Package comparator lemmas -/

lemma swap_eq_gt {o : Ordering} : o.swap = .gt ↔ o = .lt := by
  cases o <;> simp [Ordering.swap]

lemma pkgCmp_swap (a b : Package) : pkgCmp a b = (pkgCmp b a).swap := by
  simp only [pkgCmp, ordering_then_swap, Ordering.swap_swap]
  rw [strCmp_swap, versionCmp_swap]
  simp [Ordering.swap_swap]

/-- The comparator is not-greater exactly when the name is strictly
smaller, or the names agree and the version is at least the other's. -/
lemma pkgCmp_ne_gt {a b : Package} :
    pkgCmp a b ≠ .gt ↔
      strCmp a.name b.name = .lt ∨
        (a.name = b.name ∧ Version.cmp b.version a.version ≠ .gt) := by
  unfold pkgCmp
  rw [Ne, Ordering.then_eq_gt]
  push_neg
  constructor
  · rintro ⟨h1, h2⟩
    rcases ordering_ne_gt.mp h1 with h | h
    · exact Or.inl h
    · refine Or.inr ⟨strCmp_eq_imp h, ?_⟩
      intro hg
      exact h2 h (swap_eq_gt.mpr ((cmp_gt_iff_lt versionCmp_swap).mp hg))
  · rintro (h | ⟨hn, hv⟩)
    · refine ⟨by simp [h], fun he => ?_⟩
      rw [h] at he; cases he
    · refine ⟨by rw [hn, strCmp_refl]; simp, fun _ hg => ?_⟩
      exact absurd ((cmp_gt_iff_lt versionCmp_swap).mpr (swap_eq_gt.mp hg)) hv

lemma pkgLE_total : ∀ a b : Package, pkgLE a b ∨ pkgLE b a := by
  intro a b
  by_cases h : pkgCmp a b = .gt
  · right
    unfold pkgLE
    rw [pkgCmp_swap, h]
    decide
  · exact Or.inl h

lemma pkgLE_trans : ∀ a b c : Package, pkgLE a b → pkgLE b c → pkgLE a c := by
  intro a b c h1 h2
  unfold pkgLE at h1 h2 ⊢
  rw [pkgCmp_ne_gt] at h1 h2 ⊢
  rcases h1 with h1 | ⟨hn1, hv1⟩
  · rcases h2 with h2 | ⟨hn2, hv2⟩
    · exact Or.inl (strCmp_lt_trans h1 h2)
    · exact Or.inl (hn2 ▸ h1)
  · rcases h2 with h2 | ⟨hn2, hv2⟩
    · exact Or.inl (hn1 ▸ h2)
    · exact Or.inr ⟨hn1.trans hn2, versionCmp_le_trans hv2 hv1⟩

instance : IsTotal Package pkgLE := ⟨pkgLE_total⟩

instance : IsTrans Package pkgLE := ⟨pkgLE_trans⟩

lemma sortPkgs_sorted (l : List Package) : List.Sorted pkgLE (sortPkgs l) :=
  List.sorted_insertionSort pkgLE l

lemma sortPkgs_perm (l : List Package) : (sortPkgs l).Perm l :=
  List.perm_insertionSort pkgLE l

/-! ### Sorted-set (`BTreeSet`) lemmas -/

lemma mem_sortedInsert (x y : String) :
    ∀ l, y ∈ sortedInsert x l ↔ y = x ∨ y ∈ l := by
  intro l
  induction l with
  | nil => simp [sortedInsert]
  | cons z zs ih =>
    unfold sortedInsert
    split
    · simp [List.mem_cons]
    · next h =>
      have hxz := strCmp_eq_imp h
      subst hxz
      simp only [List.mem_cons]
      tauto
    · simp only [List.mem_cons, ih]
      tauto

lemma sortedInsert_sorted (x : String) :
    ∀ l, l.Pairwise strLT → (sortedInsert x l).Pairwise strLT := by
  intro l
  induction l with
  | nil => simp [sortedInsert, strLT]
  | cons z zs ih =>
    intro hp
    rw [List.pairwise_cons] at hp
    unfold sortedInsert
    split
    · next h =>
      rw [List.pairwise_cons]
      refine ⟨?_, List.pairwise_cons.mpr hp⟩
      intro w hw
      rcases List.mem_cons.mp hw with rfl | hw
      · exact h
      · exact strCmp_lt_trans h (hp.1 w hw)
    · exact List.pairwise_cons.mpr hp
    · next h =>
      rw [List.pairwise_cons]
      refine ⟨?_, ih hp.2⟩
      intro w hw
      rcases (mem_sortedInsert x w zs).mp hw with rfl | hw
      · exact (cmp_gt_iff_lt strCmp_swap).mp h
      · exact hp.1 w hw

lemma toSortedSet_sorted (l : List String) : (toSortedSet l).Pairwise strLT := by
  induction l with
  | nil => simp [toSortedSet]
  | cons x xs ih => exact sortedInsert_sorted x _ ih

lemma toSortedSet_nodup (l : List String) : (toSortedSet l).Nodup := by
  refine (toSortedSet_sorted l).imp ?_
  intro a b hab he
  subst he
  unfold strLT at hab
  rw [strCmp_refl] at hab
  cases hab

lemma mem_toSortedSet {x : String} : ∀ {l}, x ∈ toSortedSet l ↔ x ∈ l := by
  intro l
  induction l with
  | nil => simp [toSortedSet]
  | cons z zs ih =>
    show x ∈ sortedInsert z (toSortedSet zs) ↔ _
    rw [mem_sortedInsert, ih]
    simp [List.mem_cons]

/-! ### Erase-fold lemmas (the default-feature removal loop) -/

lemma foldl_erase_nodup :
    ∀ (dns l : List String), l.Nodup →
      (dns.foldl (fun s f => s.erase f) l).Nodup
  | [], _, h => h
  | d :: ds, l, h => foldl_erase_nodup ds (l.erase d) (h.erase d)

lemma not_mem_foldl_erase :
    ∀ (dns l : List String) {x}, x ∉ l →
      x ∉ dns.foldl (fun s f => s.erase f) l
  | [], _, _, h => h
  | d :: ds, l, _, h =>
    not_mem_foldl_erase ds (l.erase d)
      (fun hm => h ((List.erase_sublist d l).subset hm))

lemma mem_not_mem_foldl_erase :
    ∀ (dns l : List String) {x}, l.Nodup → x ∈ dns →
      x ∉ dns.foldl (fun s f => s.erase f) l := by
  intro dns
  induction dns with
  | nil => intro _ _ _ h; cases h
  | cons d ds ih =>
    intro l x hn hx
    rcases List.mem_cons.mp hx with heq | hx
    · refine not_mem_foldl_erase ds (l.erase d) ?_
      rw [heq]
      exact hn.not_mem_erase
    · exact ih (l.erase d) (hn.erase d) hx

/-! ### Version-selection lemmas -/

lemma versionCmp_refl (v : Version) : Version.cmp v v = .eq :=
  versionCmp_eq_eq.mpr rfl

lemma maxByVersion_go (l : List Summary) :
    ∀ (m s : Summary), l.foldl maxStep (some m) = some s →
      (s = m ∨ s ∈ l) ∧ Version.cmp m.version s.version ≠ .gt ∧
        ∀ t ∈ l, Version.cmp t.version s.version ≠ .gt := by
  induction l with
  | nil =>
    intro m s h
    cases h
    refine ⟨Or.inl rfl, ?_, by simp⟩
    rw [versionCmp_refl]
    simp
  | cons t l ih =>
    intro m s h
    by_cases hc : Version.cmp m.version t.version = .gt
    · have hfold : l.foldl maxStep (some m) = some s := by
        simpa [maxStep, hc] using h
      obtain ⟨hmem, hms, hall⟩ := ih m s hfold
      have htm : Version.cmp t.version m.version ≠ .gt := by
        rw [ordering_ne_gt]
        exact Or.inl ((cmp_gt_iff_lt versionCmp_swap).mp hc)
      refine ⟨?_, hms, ?_⟩
      · rcases hmem with rfl | hs
        · exact Or.inl rfl
        · exact Or.inr (List.mem_cons_of_mem t hs)
      · intro u hu
        rcases List.mem_cons.mp hu with rfl | hu
        · exact versionCmp_le_trans htm hms
        · exact hall u hu
    · have hfold : l.foldl maxStep (some t) = some s := by
        simpa [maxStep, hc] using h
      obtain ⟨hmem, hts, hall⟩ := ih t s hfold
      refine ⟨?_, versionCmp_le_trans hc hts, ?_⟩
      · rcases hmem with rfl | hs
        · exact Or.inr (List.mem_cons_self s l)
        · exact Or.inr (List.mem_cons_of_mem t hs)
      · intro u hu
        rcases List.mem_cons.mp hu with rfl | hu
        · exact hts
        · exact hall u hu

lemma maxByVersion_go_ne_none (l : List Summary) :
    ∀ m : Summary, l.foldl maxStep (some m) ≠ none := by
  induction l with
  | nil => intro m h; cases h
  | cons t l ih =>
    intro m
    by_cases hc : Version.cmp m.version t.version = .gt <;>
      simp [maxStep, hc, ih]

lemma maxByVersion_some {l : List Summary} {s : Summary}
    (h : maxByVersion l = some s) :
    s ∈ l ∧ ∀ t ∈ l, Version.cmp t.version s.version ≠ .gt := by
  cases l with
  | nil => cases h
  | cons t l =>
    have hfold : l.foldl maxStep (some t) = some s := h
    obtain ⟨hmem, hts, hall⟩ := maxByVersion_go l t s hfold
    refine ⟨?_, ?_⟩
    · rcases hmem with rfl | hs
      · exact List.mem_cons_self s l
      · exact List.mem_cons_of_mem t hs
    · intro u hu
      rcases List.mem_cons.mp hu with rfl | hu
      · exact hts
      · exact hall u hu

lemma maxByVersion_none {l : List Summary} :
    maxByVersion l = none ↔ l = [] := by
  cases l with
  | nil => simp [maxByVersion]
  | cons t l =>
    simp only [maxByVersion, List.foldl_cons]
    constructor
    · intro h
      exact absurd h (maxByVersion_go_ne_none l t)
    · intro h; cases h

/-! ### Grouping lemmas -/

lemma groupByName_step_cons (x q : Package) (g : List Package)
    (gs : List (List Package)) :
    groupByName.step x ((q :: g) :: gs) =
      if x.name = q.name then (x :: q :: g) :: gs
      else [x] :: (q :: g) :: gs := rfl

/-- `groupByName` is the canonical run partition: concatenating the
groups restores the list, no group is empty, every group's elements share
a name, and adjacent groups carry different names. -/
lemma groupByName_spec : ∀ l : List Package,
    (groupByName l).flatten = l ∧
    (∀ g ∈ groupByName l, g ≠ []) ∧
    (∀ g ∈ groupByName l, constName g) ∧
    List.Chain' diffNames (groupByName l) := by
  intro l
  induction l with
  | nil => simp [groupByName]
  | cons x xs ih =>
    obtain ⟨ihf, ihne, ihc, ihch⟩ := ih
    have hdef : groupByName (x :: xs) = groupByName.step x (groupByName xs) :=
      rfl
    cases hacc : groupByName xs with
    | nil =>
      rw [hdef, hacc]
      have hxs : xs = [] := by rw [← ihf, hacc]; rfl
      subst hxs
      refine ⟨rfl, ?_, ?_, ?_⟩ <;> simp [groupByName.step, constName]
    | cons g0 gs =>
      cases g0 with
      | nil => exact absurd rfl (ihne [] (hacc ▸ List.mem_cons_self [] gs))
      | cons q g =>
        rw [hacc] at ihf ihne ihc ihch
        have hqmem : (q :: g) ∈ (q :: g) :: gs := List.mem_cons_self _ _
        have hqconst : constName (q :: g) := ihc _ hqmem
        rw [hdef, hacc, groupByName_step_cons]
        by_cases hname : x.name = q.name
        · simp only [if_pos hname]
          refine ⟨?_, ?_, ?_, ?_⟩
          · simpa using ihf
          · intro g' hg'
            rcases List.mem_cons.mp hg' with rfl | hg'
            · simp
            · exact ihne g' (List.mem_cons_of_mem _ hg')
          · -- every member of the enlarged head group has q's name
            have hall : ∀ p ∈ x :: q :: g, p.name = q.name := by
              intro p hp
              rcases List.mem_cons.mp hp with rfl | hp
              · exact hname
              · exact hqconst p hp q (List.mem_cons_self q g)
            intro g' hg'
            rcases List.mem_cons.mp hg' with rfl | hg'
            · intro p hp r hr
              rw [hall p hp, hall r hr]
            · exact ihc g' (List.mem_cons_of_mem _ hg')
          · rw [List.chain'_cons'] at ihch ⊢
            refine ⟨?_, ihch.2⟩
            intro h hh p hp r hr
            have hpq : p.name = q.name := by
              rcases List.mem_cons.mp hp with rfl | hp
              · exact hname
              · exact hqconst p hp q (List.mem_cons_self q g)
            rw [hpq]
            exact ihch.1 h hh q (List.mem_cons_self q g) r hr
        · simp only [if_neg hname]
          refine ⟨?_, ?_, ?_, ?_⟩
          · simpa using ihf
          · intro g' hg'
            rcases List.mem_cons.mp hg' with rfl | hg'
            · simp
            · exact ihne g' hg'
          · intro g' hg'
            rcases List.mem_cons.mp hg' with rfl | hg'
            · intro p hp r hr
              rcases List.mem_singleton.mp hp with rfl
              rcases List.mem_singleton.mp hr with rfl
              rfl
            · exact ihc g' hg'
          · rw [List.chain'_cons']
            refine ⟨?_, ihch⟩
            intro h hh p hp r hr
            have hy : q :: g = h := by simpa using hh
            subst hy
            rcases List.mem_singleton.mp hp with rfl
            have hrq : r.name = q.name :=
              hqconst r hr q (List.mem_cons_self q g)
            rw [hrq]
            exact hname

/-! ### Entry-processing lemmas -/

lemma processPackage_ok_fields {first : Bool} {pkg : Package} {e : Entry}
    (h : processPackage first pkg = .ok e) :
    e.spec.package = pkg.name ∧ e.info.name = pkg.name ∧
    e.info.id = e.exposedName ∧
    ∃ c, crateNameOf pkg = some c ∧
      e.exposedName = if first then c else c ++ versionSuffix pkg.version := by
  cases hc : crateNameOf pkg with
  | none => simp [processPackage, hc] at h
  | some c =>
    simp only [processPackage, hc] at h
    cases h
    exact ⟨rfl, rfl, rfl, c, rfl, rfl⟩

lemma processPackage_error {first : Bool} {pkg : Package} {m : String}
    (h : processPackage first pkg = .error m) :
    crateNameOf pkg = none ∧ m = s!"{pkg.name} did not have a library" := by
  cases hc : crateNameOf pkg with
  | none =>
    simp only [processPackage, hc] at h
    cases h
    exact ⟨rfl, rfl⟩
  | some c => simp [processPackage, hc] at h

lemma processGroupAux_ok :
    ∀ (first : Bool) (g : List Package) (es : List Entry),
      processGroupAux first g = .ok es →
      es.map (·.info.name) = g.map (·.name) ∧
      (∀ e ∈ es, ∃ p ∈ g, e.spec.package = p.name ∧ e.info.name = p.name) ∧
      (∀ p ∈ g, crateNameOf p ≠ none) := by
  intro first g
  induction g generalizing first with
  | nil =>
    intro es h
    cases h
    exact ⟨rfl, by simp, by simp⟩
  | cons pkg rest ih =>
    intro es h
    cases hp : processPackage first pkg with
    | error m => simp [processGroupAux, hp, Bind.bind, Except.bind] at h
    | ok e =>
      cases hr : processGroupAux false rest with
      | error m => simp [processGroupAux, hp, hr, Bind.bind, Except.bind] at h
      | ok es0 =>
        have hes : es = e :: es0 := by
          simpa [processGroupAux, hp, hr, Bind.bind, Except.bind] using h.symm
        subst hes
        obtain ⟨hpkg, hname, _, c, hc, _⟩ := processPackage_ok_fields hp
        obtain ⟨ihn, ihe, ihc⟩ := ih false es0 hr
        refine ⟨?_, ?_, ?_⟩
        · simp [hname, ihn]
        · intro e0 he0
          rcases List.mem_cons.mp he0 with rfl | he0
          · exact ⟨pkg, List.mem_cons_self _ _, hpkg, hname⟩
          · obtain ⟨p, hpm, h1, h2⟩ := ihe e0 he0
            exact ⟨p, List.mem_cons_of_mem _ hpm, h1, h2⟩
        · intro p hp0
          rcases List.mem_cons.mp hp0 with rfl | hp0
          · rw [hc]; simp
          · exact ihc p hp0

lemma processGroupAux_error :
    ∀ (first : Bool) (g : List Package) (m : String),
      processGroupAux first g = .error m →
      ∃ q ∈ g, crateNameOf q = none ∧
        m = s!"{q.name} did not have a library" := by
  intro first g
  induction g generalizing first with
  | nil => intro m h; cases h
  | cons pkg rest ih =>
    intro m h
    cases hp : processPackage first pkg with
    | error m0 =>
      have hm : m0 = m := by
        simpa [processGroupAux, hp, Bind.bind, Except.bind] using h
      obtain ⟨hc, hmsg⟩ := processPackage_error hp
      exact ⟨pkg, List.mem_cons_self _ _, hc, hm ▸ hmsg⟩
    | ok e =>
      cases hr : processGroupAux false rest with
      | error m0 =>
        have hm : m0 = m := by
          simpa [processGroupAux, hp, hr, Bind.bind, Except.bind] using h
        obtain ⟨q, hq, hc, hmsg⟩ := ih false m0 hr
        exact ⟨q, List.mem_cons_of_mem _ hq, hc, hm ▸ hmsg⟩
      | ok es0 => simp [processGroupAux, hp, hr, Bind.bind, Except.bind] at h

lemma processGroupAux_ids_false :
    ∀ (g : List Package) (es : List Entry),
      processGroupAux false g = .ok es →
      es.map (·.exposedName) =
        g.map (fun q => (crateNameOf q).getD "" ++ versionSuffix q.version) := by
  intro g
  induction g with
  | nil => intro es h; cases h; rfl
  | cons pkg rest ih =>
    intro es h
    cases hp : processPackage false pkg with
    | error m => simp [processGroupAux, hp, Bind.bind, Except.bind] at h
    | ok e =>
      cases hr : processGroupAux false rest with
      | error m => simp [processGroupAux, hp, hr, Bind.bind, Except.bind] at h
      | ok es0 =>
        have hes : es = e :: es0 := by
          simpa [processGroupAux, hp, hr, Bind.bind, Except.bind] using h.symm
        subst hes
        obtain ⟨_, _, _, c, hc, hid⟩ := processPackage_ok_fields hp
        simp only [List.map_cons, hid, hc, ih es0 hr, Option.getD_some]
        simp

lemma processGroup_ids {g : List Package} {es : List Entry}
    (h : processGroup g = .ok es) :
    es.map (·.exposedName) = specGroupIds g := by
  cases g with
  | nil => cases h; rfl
  | cons pkg rest =>
    cases hp : processPackage true pkg with
    | error m => simp [processGroup, processGroupAux, hp, Bind.bind, Except.bind] at h
    | ok e =>
      cases hr : processGroupAux false rest with
      | error m =>
        simp [processGroup, processGroupAux, hp, hr, Bind.bind, Except.bind] at h
      | ok es0 =>
        have hes : es = e :: es0 := by
          simpa [processGroup, processGroupAux, hp, hr, Bind.bind,
            Except.bind] using h.symm
        subst hes
        obtain ⟨_, _, _, c, hc, hid⟩ := processPackage_ok_fields hp
        simp only [specGroupIds, List.map_cons, hid, hc, Option.getD_some,
          processGroupAux_ids_false rest es0 hr]
        simp

/-! ### Group-sequence lemmas -/

lemma processGroups_ok :
    ∀ (gs : List (List Package)) (entries : List Entry),
      processGroups gs = .ok entries →
      ∃ ess, List.Forall₂ (fun g es => processGroup g = .ok es) gs ess ∧
        entries = ess.flatten := by
  intro gs
  induction gs with
  | nil =>
    intro entries h
    cases h
    exact ⟨[], List.Forall₂.nil, rfl⟩
  | cons g gs ih =>
    intro entries h
    cases hg : processGroup g with
    | error m => simp [processGroups, hg, Bind.bind, Except.bind] at h
    | ok es =>
      cases hr : processGroups gs with
      | error m => simp [processGroups, hg, hr, Bind.bind, Except.bind] at h
      | ok rest =>
        have hes : entries = es ++ rest := by
          simpa [processGroups, hg, hr, Bind.bind, Except.bind] using h.symm
        obtain ⟨ess, hf, hflat⟩ := ih rest hr
        exact ⟨es :: ess, List.Forall₂.cons hg hf, by simp [hes, hflat]⟩

lemma processGroups_error :
    ∀ (gs : List (List Package)) (m : String),
      processGroups gs = .error m →
      ∃ g ∈ gs, processGroup g = .error m := by
  intro gs
  induction gs with
  | nil => intro m h; cases h
  | cons g gs ih =>
    intro m h
    cases hg : processGroup g with
    | error m0 =>
      have hm : m0 = m := by
        simpa [processGroups, hg, Bind.bind, Except.bind] using h
      exact ⟨g, List.mem_cons_self _ _, hm ▸ hg⟩
    | ok es =>
      cases hr : processGroups gs with
      | error m0 =>
        have hm : m0 = m := by
          simpa [processGroups, hg, hr, Bind.bind, Except.bind] using h
        obtain ⟨g0, hg0, he⟩ := ih m0 hr
        exact ⟨g0, List.mem_cons_of_mem _ hg0, hm ▸ he⟩
      | ok rest => simp [processGroups, hg, hr, Bind.bind, Except.bind] at h

/-! ### Dependencies-map lemmas -/

lemma mem_btreeInsert {k : String} {v : DependencySpec} :
    ∀ (m2 : List (String × DependencySpec)) (kv : String × DependencySpec),
      kv ∈ btreeInsert k v m2 → kv = (k, v) ∨ kv ∈ m2 := by
  intro m2
  induction m2 with
  | nil =>
    intro kv h
    rcases List.mem_singleton.mp h with rfl
    exact Or.inl rfl
  | cons kv0 rest ih =>
    intro kv h
    obtain ⟨k0, v0⟩ := kv0
    unfold btreeInsert at h
    split at h
    · rcases List.mem_cons.mp h with rfl | h
      · exact Or.inl rfl
      · exact Or.inr h
    · rcases List.mem_cons.mp h with rfl | h
      · exact Or.inl rfl
      · exact Or.inr (List.mem_cons_of_mem _ h)
    · rcases List.mem_cons.mp h with rfl | h
      · exact Or.inr (List.mem_cons_self _ _)
      · rcases ih kv h with h | h
        · exact Or.inl h
        · exact Or.inr (List.mem_cons_of_mem _ h)

lemma btreeInsert_keys_sorted {k : String} {v : DependencySpec} :
    ∀ m2 : List (String × DependencySpec),
      (m2.map Prod.fst).Pairwise strLT →
      ((btreeInsert k v m2).map Prod.fst).Pairwise strLT := by
  intro m2
  induction m2 with
  | nil => intro _; simp [btreeInsert]
  | cons kv0 rest ih =>
    intro hp
    obtain ⟨k0, v0⟩ := kv0
    simp only [List.map_cons, List.pairwise_cons] at hp
    unfold btreeInsert
    split
    · next h =>
      simp only [List.map_cons, List.pairwise_cons]
      refine ⟨?_, hp⟩
      intro w hw
      rcases List.mem_cons.mp hw with rfl | hw
      · exact h
      · exact strCmp_lt_trans h (hp.1 w hw)
    · next h =>
      have hk : k = k0 := strCmp_eq_imp h
      subst hk
      simp only [List.map_cons, List.pairwise_cons]
      exact hp
    · next h =>
      simp only [List.map_cons, List.pairwise_cons]
      refine ⟨?_, ih hp.2⟩
      intro w hw
      obtain ⟨kv1, hkv1, rfl⟩ := List.mem_map.mp hw
      rcases mem_btreeInsert rest kv1 hkv1 with rfl | hm
      · exact (cmp_gt_iff_lt strCmp_swap).mp h
      · exact hp.1 kv1.1 (List.mem_map.mpr ⟨kv1, hm, rfl⟩)

lemma dependenciesMap_go_sorted (entries : List Entry) :
    ∀ m0 : List (String × DependencySpec),
      (m0.map Prod.fst).Pairwise strLT →
      (((entries.foldl (fun m e => btreeInsert e.exposedName e.spec m) m0)).map
          Prod.fst).Pairwise strLT := by
  induction entries with
  | nil => intro m0 h; exact h
  | cons e rest ih =>
    intro m0 h
    exact ih (btreeInsert e.exposedName e.spec m0) (btreeInsert_keys_sorted m0 h)

lemma dependenciesMap_keys_sorted (entries : List Entry) :
    ((dependenciesMap entries).map Prod.fst).Pairwise strLT :=
  dependenciesMap_go_sorted entries [] (by simp)

lemma dependenciesMap_keys_nodup (entries : List Entry) :
    ((dependenciesMap entries).map Prod.fst).Nodup := by
  refine (dependenciesMap_keys_sorted entries).imp ?_
  intro a b hab he
  subst he
  unfold strLT at hab
  rw [strCmp_refl] at hab
  cases hab

lemma dependenciesMap_go_mem (entries : List Entry) :
    ∀ (m0 : List (String × DependencySpec)) (kv : String × DependencySpec),
      kv ∈ entries.foldl (fun m e => btreeInsert e.exposedName e.spec m) m0 →
      kv ∈ m0 ∨ ∃ e ∈ entries, kv = (e.exposedName, e.spec) := by
  induction entries with
  | nil => intro m0 kv h; exact Or.inl h
  | cons e rest ih =>
    intro m0 kv h
    rcases ih (btreeInsert e.exposedName e.spec m0) kv h with h | ⟨e0, he0, rfl⟩
    · rcases mem_btreeInsert m0 kv h with rfl | h
      · exact Or.inr ⟨e, List.mem_cons_self _ _, rfl⟩
      · exact Or.inl h
    · exact Or.inr ⟨e0, List.mem_cons_of_mem _ he0, rfl⟩

lemma dependenciesMap_mem {entries : List Entry}
    {kv : String × DependencySpec} (h : kv ∈ dependenciesMap entries) :
    ∃ e ∈ entries, kv = (e.exposedName, e.spec) := by
  rcases dependenciesMap_go_mem entries [] kv h with h | h
  · cases h
  · exact h

/-! ### Forall₂ helpers -/

lemma forall₂_map_eq {α β γ : Type} {R : α → β → Prop} {f : α → γ}
    {g : β → γ} (h : ∀ a b, R a b → g b = f a) :
    ∀ {l1 : List α} {l2 : List β}, List.Forall₂ R l1 l2 →
      l2.map g = l1.map f := by
  intro l1 l2 hf
  induction hf with
  | nil => rfl
  | cons hr _ ih => simp [h _ _ hr, ih]

lemma forall₂_mem_right {α β : Type} {R : α → β → Prop} :
    ∀ {l1 : List α} {l2 : List β}, List.Forall₂ R l1 l2 →
      ∀ b ∈ l2, ∃ a ∈ l1, R a b := by
  intro l1 l2 hf
  induction hf with
  | nil => intro b hb; cases hb
  | cons hr _ ih =>
    intro b hb
    rcases List.mem_cons.mp hb with rfl | hb
    · exact ⟨_, List.mem_cons_self _ _, hr⟩
    · obtain ⟨a, ha, har⟩ := ih b hb
      exact ⟨a, List.mem_cons_of_mem _ ha, har⟩

lemma forall₂_mem_left {α β : Type} {R : α → β → Prop} :
    ∀ {l1 : List α} {l2 : List β}, List.Forall₂ R l1 l2 →
      ∀ a ∈ l1, ∃ b ∈ l2, R a b := by
  intro l1 l2 hf
  induction hf with
  | nil => intro a ha; cases ha
  | cons hr _ ih =>
    intro a ha
    rcases List.mem_cons.mp ha with rfl | ha
    · exact ⟨_, List.mem_cons_self _ _, hr⟩
    · obtain ⟨b, hb, hbr⟩ := ih a ha
      exact ⟨b, List.mem_cons_of_mem _ hb, hbr⟩

/-! ### Whole-pipeline lemmas -/

lemma materializeOutputs_ok {packages : List Package} {out : RunOutputs}
    (h : materializeOutputs packages = .ok out) :
    ∃ entries, buildEntries packages = .ok entries ∧
      out.dependencies = dependenciesMap entries ∧
      out.index = entries.map (·.info) := by
  cases hb : buildEntries packages with
  | error m => simp [materializeOutputs, hb, Bind.bind, Except.bind] at h
  | ok entries =>
    have hout : out =
        { dependencies := dependenciesMap entries
          index := entries.map (·.info) } := by
      simpa [materializeOutputs, hb, Bind.bind, Except.bind] using h.symm
    exact ⟨entries, rfl, by rw [hout], by rw [hout]⟩

lemma materializeOutputs_error {packages : List Package} {m : String}
    (h : buildEntries packages = .error m) :
    materializeOutputs packages = .error m := by
  simp [materializeOutputs, h, Bind.bind, Except.bind]

/-- Structure of a successful `buildEntries` run: index names are exactly
the sorted package names, every entry's names come from an input package,
and every input package has a library target. -/
lemma buildEntries_names {packages : List Package} {entries : List Entry}
    (h : buildEntries packages = .ok entries) :
    entries.map (·.info.name) = (sortPkgs packages).map (·.name) ∧
    (∀ e ∈ entries, ∃ p ∈ packages,
      e.spec.package = p.name ∧ e.info.name = p.name) ∧
    (∀ p ∈ packages, crateNameOf p ≠ none) := by
  obtain ⟨ess, hf, rfl⟩ := processGroups_ok _ _ h
  obtain ⟨hflat, _, _, _⟩ := groupByName_spec (sortPkgs packages)
  refine ⟨?_, ?_, ?_⟩
  · have hgen : ∀ (gs : List (List Package)) (ess0 : List (List Entry)),
        List.Forall₂ (fun g es => processGroup g = .ok es) gs ess0 →
        ess0.map (List.map (·.info.name)) = gs.map (List.map (·.name)) := by
      intro gs ess0 hf0
      induction hf0 with
      | nil => rfl
      | cons hr _ ih =>
        simp only [List.map_cons, ih, List.cons.injEq, and_true]
        exact (processGroupAux_ok true _ _ hr).1
    have hmaps := hgen _ _ hf
    calc ess.flatten.map (·.info.name)
        = (ess.map (List.map (·.info.name))).flatten := by
          rw [List.map_flatten]
      _ = ((groupByName (sortPkgs packages)).map
            (List.map (·.name))).flatten := by rw [hmaps]
      _ = (groupByName (sortPkgs packages)).flatten.map (·.name) := by
          rw [List.map_flatten]
      _ = (sortPkgs packages).map (·.name) := by rw [hflat]
  · intro e he
    obtain ⟨es, hes, hee⟩ := List.mem_flatten.mp he
    obtain ⟨g, hg, hr⟩ := forall₂_mem_right hf es hes
    obtain ⟨p, hp, h1, h2⟩ := (processGroupAux_ok true g es hr).2.1 e hee
    have hpin : p ∈ sortPkgs packages :=
      hflat ▸ List.mem_flatten.mpr ⟨g, hg, hp⟩
    exact ⟨p, (sortPkgs_perm packages).mem_iff.mp hpin, h1, h2⟩
  · intro p hp
    have hpin : p ∈ sortPkgs packages :=
      (sortPkgs_perm packages).mem_iff.mpr hp
    obtain ⟨g, hg, hpg⟩ := List.mem_flatten.mp (hflat ▸ hpin)
    obtain ⟨es, _, hr⟩ := forall₂_mem_left hf g hg
    exact (processGroupAux_ok true g es hr).2.2 p hpg

/-! ### Claim C6: candidate-set semantics -/

/-- C6 counterexample: a name present in both the popularity list and the
curated additions appears twice, not once, in the candidate sequence —
`add_curated_crates` extends a `Vec` and collapses nothing. -/
theorem C6_counterexample :
    add_curated_crates ["serde"] ⟨[], ["serde"]⟩ = ["serde", "serde"] ∧
    (candidateNames ["serde"] ⟨[], ["serde"]⟩).count "serde" = 2 := by
  decide

/-- C6 (amended): the candidate sequence is the popularity list followed
by the deduplicated additions, so a name occurs once per popularity-list
occurrence plus at most one more from the additions; duplicates are only
collapsed inside the additions set, and blacklisted names are dropped. -/
theorem C6_amended_candidate_multiplicity :
    ∀ (top : List String) (m : Modifications) (n : String),
      (add_curated_crates top m).count n =
        top.count n + (toSortedSet m.additions).count n ∧
      (toSortedSet m.additions).count n ≤ 1 ∧
      (candidateNames top m).count n =
        (if m.blacklisted n then 0 else (add_curated_crates top m).count n) := by
  intro top m n
  refine ⟨List.count_append n top _,
    List.nodup_iff_count_le_one.mp (toSortedSet_nodup m.additions) n, ?_⟩
  by_cases hb : m.blacklisted n = true
  · rw [if_pos hb, List.count_eq_zero]
    intro hmem
    have hf := (List.mem_filter.mp hmem).2
    rw [hb] at hf
    cases hf
  · rw [if_neg hb]
    exact List.count_filter (by simp [hb])

/-! ### Claim C7: serialization of the `package` field -/

/-- C7 counterexample: the `package` field is written even when it equals
the map key — serde only skips it when the string is empty. -/
theorem C7_counterexample :
    w7spec.package = "serde" ∧
    ("package", "serde") ∈ serializedFields "serde" w7spec := by
  decide

/-- C7 (amended): the `package` field is omitted exactly when the stored
package string is empty, independently of the map key; and the pipeline
always stores the real crate name there, so in practice it is always
written, even when it equals the key. -/
theorem C7_amended_package_field :
    (∀ (key : String) (d : DependencySpec),
      ("package" ∈ (serializedFields key d).map Prod.fst ↔
        ¬d.package.isEmpty = true)) ∧
    (∀ (first : Bool) (pkg : Package) (e : Entry),
      processPackage first pkg = .ok e → e.spec.package = pkg.name) := by
  constructor
  · intro key d
    by_cases hp : d.package.isEmpty <;>
      by_cases hf : d.features.isEmpty <;>
        by_cases hd : d.default_features <;>
          simp [serializedFields, hp, hf, hd]
  · intro first pkg e h
    exact (processPackage_ok_fields h).1

/-- C7 witness: at a concrete row whose package equals its key the field
is present, and the pipeline stored the real name. -/
theorem C7_witness :
    ("package" ∈ (serializedFields "serde" w7spec).map Prod.fst ↔
      ¬w7spec.package.isEmpty = true) ∧
    w7entry.spec.package = w7pkg.name :=
  ⟨C7_amended_package_field.1 "serde" w7spec,
   C7_amended_package_field.2 true w7pkg w7entry rfl⟩

/-! ### Claim C10: canonical identifier from the first library target -/

/-- C10: the canonical identifier is the crate name of the first library
target in the package's declared target list; non-library targets before
it and any targets after it are ignored. -/
theorem C10_first_library_target :
    ∀ (pkg : Package) (before mid : List Target) (t : Target),
      pkg.targets = before ++ t :: mid → t.kind = .lib →
      (∀ t0 ∈ before, t0.kind ≠ .lib) →
      crateNameOf pkg = some t.crateName := by
  intro pkg before mid t ht hk hnone
  unfold crateNameOf
  rw [ht, List.filterMap_append]
  have h1 : before.filterMap
      (fun t0 => match t0.kind with
        | TargetKind.lib => some t0.crateName
        | TargetKind.other => none) = [] := by
    rw [List.filterMap_eq_nil_iff]
    intro a ha
    cases hk0 : a.kind
    · exact absurd hk0 (hnone a ha)
    · simp
  rw [h1, List.nil_append, List.filterMap_cons, hk]
  rfl

/-- C10 witness: with a binary target first and two library targets, the
first library target's crate name is chosen and the second ignored. -/
theorem C10_witness : crateNameOf w10pkg = some "x" :=
  C10_first_library_target w10pkg [⟨.other, "b"⟩] [⟨.lib, "y"⟩]
    ⟨.lib, "x"⟩ rfl rfl (by decide)

lemma if_some_pair_eq {c : Prop} [Decidable c] {E fs : List String}
    {t df : Bool} (h : (if c then some (E, t) else none) = some (fs, df)) :
    fs = E := by
  by_cases hc : c
  · rw [if_pos hc] at h
    cases h
    rfl
  · rw [if_neg hc] at h
    cases h

/-! ### Claim C3: version selection -/

/-- C3: the selector returns a summary from the registry's list that is
not a pre-release and whose version is maximal (semver order) among the
non-pre-release summaries; it returns nothing exactly when every summary
is a pre-release, and a candidate with no viable version makes the whole
summary loop fail instead of being skipped. -/
theorem C3_version_selection :
    (∀ (summaries : List Summary) (s : Summary),
      selectSummary summaries = some s →
        s ∈ summaries ∧ s.version.isPrerelease = false ∧
        ∀ t ∈ summaries, t.version.isPrerelease = false →
          Version.cmp t.version s.version ≠ .gt) ∧
    (∀ summaries : List Summary,
      (selectSummary summaries = none ↔
        ∀ t ∈ summaries, t.version.isPrerelease = true)) ∧
    (∀ (query : String → List Summary) (candidates : List String)
      (c : String), c ∈ candidates → selectSummary (query c) = none →
      ∀ res, buildRootSummaries query candidates ≠ .ok res) := by
  refine ⟨?_, ?_, ?_⟩
  · intro summaries s h
    obtain ⟨hmem, hmax⟩ := maxByVersion_some h
    have hm := List.mem_filter.mp hmem
    refine ⟨hm.1, by simpa using hm.2, ?_⟩
    intro t ht hpre
    exact hmax t (List.mem_filter.mpr ⟨ht, by simp [hpre]⟩)
  · intro summaries
    unfold selectSummary
    rw [maxByVersion_none, List.filter_eq_nil_iff]
    constructor
    · intro h t ht
      simpa using h t ht
    · intro h t ht
      simp [h t ht]
  · intro query candidates
    induction candidates with
    | nil => intro c hc; cases hc
    | cons name rest ih =>
      intro c hc hnone res hok
      rcases List.mem_cons.mp hc with rfl | hc
      · have hsel : selectRoot c (query c) =
            .error s!"Registry has no viable versions of {c}" := by
          unfold selectRoot
          rw [hnone]
        simp [buildRootSummaries, hsel, Bind.bind, Except.bind] at hok
      · cases hs : selectRoot name (query name) with
        | error m =>
          simp [buildRootSummaries, hs, Bind.bind, Except.bind] at hok
        | ok s0 =>
          cases hr : buildRootSummaries query rest with
          | error m =>
            simp [buildRootSummaries, hs, hr, Bind.bind, Except.bind] at hok
          | ok rs => exact ih c hc hnone rs hr

/-- C3 witness: on three summaries of which the numerically largest is a
pre-release, the selector picks the largest release 1.5.0; a registry
offering only pre-releases aborts the loop. -/
theorem C3_witness :
    (w3Best ∈ w3List ∧ w3Best.version.isPrerelease = false ∧
      ∀ t ∈ w3List, t.version.isPrerelease = false →
        Version.cmp t.version w3Best.version ≠ .gt) ∧
    (∀ res, buildRootSummaries w3Query ["x"] ≠ .ok res) :=
  ⟨C3_version_selection.1 w3List w3Best (by decide),
   C3_version_selection.2.2 w3Query ["x"] "x" (by decide) (by decide)⟩

/-! ### Claim C5: default-feature removal -/

/-- C5 counterexample: with metadata `features=["default"]` and
`default-features=true` on a library that declares no `default` feature
group, the literal name `default` is not removed — an override with the
feature `default` is recorded, contradicting the claim's unconditional
removal. -/
theorem C5_counterexample :
    c5NoGroup.metadata = some ⟨["default"], true, false⟩ ∧
    playground_metadata_features c5NoGroup = some (["default"], true) := by
  decide

/-- C5 (amended): when `default-features` is true the extractor removes
the literal `default` and the implied names only if the library itself
declares a `default` feature group; with no such group the enabled set is
kept unchanged. -/
theorem C5_amended_default_feature_removal :
    ∀ (pkg : Package) (md : Metadata), pkg.metadata = some md →
      md.default_features = true →
      (∀ dns, pkg.summaryFeatures.lookup "default" = some dns →
        ∀ fs df, playground_metadata_features pkg = some (fs, df) →
          "default" ∉ fs ∧ ∀ n ∈ dns, n ∉ fs) ∧
      (pkg.summaryFeatures.lookup "default" = none →
        ∀ fs df, playground_metadata_features pkg = some (fs, df) →
          fs = toSortedSet (if md.all_features then
            pkg.summaryFeatures.map Prod.fst else md.features)) := by
  intro pkg md hmd hdf
  constructor
  · intro dns hdns fs df hres
    simp only [playground_metadata_features, hmd, hdf, hdns] at hres
    have h1 := if_some_pair_eq hres
    subst h1
    constructor
    · exact not_mem_foldl_erase dns _
        ((toSortedSet_nodup _).not_mem_erase)
    · intro n hn
      exact mem_not_mem_foldl_erase dns _
        ((toSortedSet_nodup _).erase "default") hn
  · intro hnone fs df hres
    simp only [playground_metadata_features, hmd, hdf, hnone] at hres
    exact if_some_pair_eq hres

/-- C5 witness: a library whose `default` group implies `x`, with
metadata `features=["x","y"]`, records the override `(["y"], true)`, and
neither `default` nor `x` survives in it. -/
theorem C5_witness :
    "default" ∉ (["y"] : List String) ∧
    ∀ n ∈ (["x"] : List String), n ∉ (["y"] : List String) :=
  (C5_amended_default_feature_removal w5pkg ⟨["x", "y"], true, false⟩
    rfl rfl).1 ["x"] rfl ["y"] true (by decide)

/-! ### Claim C4: blacklist exclusion from the outputs -/

lemma kept_not_blacklisted {m : Modifications} {resolve : List ResolvedId}
    {fetch : ResolvedId → Package} (hf : ∀ id, (fetch id).name = id.name) :
    ∀ p ∈ (keptIds m resolve).map fetch, m.blacklisted p.name = false := by
  intro p hp
  obtain ⟨id, hid, rfl⟩ := List.mem_map.mp hp
  have hm := (List.mem_filter.mp hid).2
  rw [hf id]
  simpa using hm

/-- C4: whatever the resolver returns, no dependency row and no index
record of a successful run carries a blacklisted name (the resolved set
is filtered by name before fetching). -/
theorem C4_blacklist_excluded (m : Modifications) (resolve : List ResolvedId)
    (fetch : ResolvedId → Package) (hf : ∀ id, (fetch id).name = id.name)
    (out : RunOutputs) (hok : runFromResolve m resolve fetch = .ok out) :
    (∀ kv ∈ out.dependencies, m.blacklisted kv.2.package = false) ∧
    (∀ info ∈ out.index, m.blacklisted info.name = false) := by
  obtain ⟨entries, hb, hdeps, hindex⟩ := materializeOutputs_ok hok
  obtain ⟨-, hmem, -⟩ := buildEntries_names hb
  constructor
  · intro kv hkv
    rw [hdeps] at hkv
    obtain ⟨e, he, rfl⟩ := dependenciesMap_mem hkv
    obtain ⟨p, hp, h1, h2⟩ := hmem e he
    show m.blacklisted e.spec.package = false
    rw [h1]
    exact kept_not_blacklisted hf p hp
  · intro info hinfo
    rw [hindex] at hinfo
    obtain ⟨e, he, rfl⟩ := List.mem_map.mp hinfo
    obtain ⟨p, hp, h1, h2⟩ := hmem e he
    show m.blacklisted e.info.name = false
    rw [h2]
    exact kept_not_blacklisted hf p hp

/-- C4 witness: with `bad` blacklisted and resolved alongside `good`,
the concrete run's outputs contain no blacklisted name. -/
theorem C4_witness :
    (∀ kv ∈ wOut.dependencies, wMods.blacklisted kv.2.package = false) ∧
    (∀ info ∈ wOut.index, wMods.blacklisted info.name = false) :=
  C4_blacklist_excluded wMods wResolve wFetch (fun _ => rfl) wOut rfl

/-! ### Claim C9: blacklist filtering of the transitively-closed set -/

/-- C9: the blacklist filter acts by name on the already-resolved set:
membership in the fetched set is membership in the resolved set minus the
blacklist, so a blacklisted transitive dependency disappears from both
outputs while its dependents remain — the emitted manifest need not be
transitively closed. -/
theorem C9_blacklist_after_resolution (m : Modifications)
    (resolve : List ResolvedId) (fetch : ResolvedId → Package)
    (hf : ∀ id, (fetch id).name = id.name) :
    (∀ id : ResolvedId, id ∈ keptIds m resolve ↔
      id ∈ resolve ∧ m.blacklisted id.name = false) ∧
    (∀ out, runFromResolve m resolve fetch = .ok out →
      (∀ q ∈ resolve, m.blacklisted q.name = true →
        q.name ∉ out.index.map (·.name)) ∧
      (∀ p ∈ resolve, m.blacklisted p.name = false →
        p.name ∈ out.index.map (·.name))) := by
  constructor
  · intro id
    constructor
    · intro h
      have hm := List.mem_filter.mp h
      exact ⟨hm.1, by simpa using hm.2⟩
    · intro h
      exact List.mem_filter.mpr ⟨h.1, by simp [h.2]⟩
  · intro out hok
    obtain ⟨entries, hb, hdeps, hindex⟩ := materializeOutputs_ok hok
    obtain ⟨hnames, -, -⟩ := buildEntries_names hb
    have hidx : out.index.map (·.name) =
        (sortPkgs ((keptIds m resolve).map fetch)).map (·.name) := by
      rw [hindex, List.map_map]
      exact hnames
    have hperm :
        ((sortPkgs ((keptIds m resolve).map fetch)).map (·.name)).Perm
          (((keptIds m resolve).map fetch).map (·.name)) :=
      (sortPkgs_perm _).map _
    have hkept : ((keptIds m resolve).map fetch).map (·.name) =
        (keptIds m resolve).map (·.name) := by
      rw [List.map_map]
      exact List.map_congr_left (fun id _ => hf id)
    constructor
    · intro q hq hbq hmem
      rw [hidx] at hmem
      have hmem2 := hperm.mem_iff.mp hmem
      rw [hkept] at hmem2
      obtain ⟨id, hid, hname⟩ := List.mem_map.mp hmem2
      have hm := (List.mem_filter.mp hid).2
      rw [hname, hbq] at hm
      simp at hm
    · intro p hp hbp
      rw [hidx]
      refine hperm.mem_iff.mpr ?_
      rw [hkept]
      exact List.mem_map.mpr ⟨p, List.mem_filter.mpr ⟨hp, by simp [hbp]⟩, rfl⟩

/-- C9 witness: in the concrete run, the blacklisted `bad` is dropped
while its dependent `good` remains in the index. -/
theorem C9_witness :
    ((⟨"good", rel 1 0 0⟩ : ResolvedId) ∈ keptIds wMods wResolve ↔
      (⟨"good", rel 1 0 0⟩ : ResolvedId) ∈ wResolve ∧
        wMods.blacklisted (ResolvedId.name ⟨"good", rel 1 0 0⟩) = false) ∧
    (ResolvedId.name ⟨"bad", rel 1 0 0⟩ ∉ wOut.index.map (·.name)) ∧
    (ResolvedId.name ⟨"good", rel 1 0 0⟩ ∈ wOut.index.map (·.name)) :=
  ⟨(C9_blacklist_after_resolution wMods wResolve wFetch (fun _ => rfl)).1 _,
   ((C9_blacklist_after_resolution wMods wResolve wFetch
      (fun _ => rfl)).2 wOut rfl).1 ⟨"bad", rel 1 0 0⟩ (by decide) (by decide),
   ((C9_blacklist_after_resolution wMods wResolve wFetch
      (fun _ => rfl)).2 wOut rfl).2 ⟨"good", rel 1 0 0⟩ (by decide) (by decide)⟩

/-! ### Claim C8: a package without a library target is fatal -/

/-- C8: if any materialized package has no library build target, the run
aborts with a message naming a library lacking one, and no output value
is ever produced — the two artifacts are written only from a successful
result. -/
theorem C8_missing_library_fatal (packages : List Package) (pkg : Package)
    (hmem : pkg ∈ packages) (hnone : crateNameOf pkg = none) :
    (∃ q ∈ packages, crateNameOf q = none ∧
      materializeOutputs packages =
        .error s!"{q.name} did not have a library") ∧
    (∀ out, materializeOutputs packages ≠ .ok out) := by
  cases hb : buildEntries packages with
  | ok entries => exact absurd hnone ((buildEntries_names hb).2.2 pkg hmem)
  | error msg =>
    obtain ⟨g, hg, hge⟩ := processGroups_error _ _ hb
    obtain ⟨q, hq, hqn, hqm⟩ := processGroupAux_error true g msg hge
    obtain ⟨hflat, -, -, -⟩ := groupByName_spec (sortPkgs packages)
    have hqpkgs : q ∈ packages :=
      (sortPkgs_perm packages).mem_iff.mp
        (hflat ▸ List.mem_flatten.mpr ⟨g, hg, hq⟩)
    subst hqm
    refine ⟨⟨q, hqpkgs, hqn, materializeOutputs_error hb⟩, ?_⟩
    intro out hok
    rw [materializeOutputs_error hb] at hok
    cases hok

/-- C8 witness: a one-package run whose package has only a binary target
fails with the expected message and yields no outputs. -/
theorem C8_witness :
    (∃ q ∈ [w8NoLib], crateNameOf q = none ∧
      materializeOutputs [w8NoLib] =
        .error s!"{q.name} did not have a library") ∧
    (∀ out, materializeOutputs [w8NoLib] ≠ .ok out) :=
  C8_missing_library_fatal [w8NoLib] w8NoLib (by decide) (by decide)

/-! ### Claim C1: sorting, grouping and identifier assignment -/

/-- C1: the materialized packages are sorted by name ascending then
version descending; the groups are exactly the maximal runs of equal
names; a successful run processes precisely those groups in order; and
each group's entries carry the spec's identifier assignment — the bare
canonical crate name for the first (newest) package, and the crate name
plus `_major_minor_patch` for every later one. -/
theorem C1_sort_group_assign :
    ∀ packages : List Package,
      List.Sorted nameAscVersionDesc (sortPkgs packages) ∧
      (groupByName (sortPkgs packages)).flatten = sortPkgs packages ∧
      (∀ g ∈ groupByName (sortPkgs packages), g ≠ [] ∧ constName g) ∧
      List.Chain' diffNames (groupByName (sortPkgs packages)) ∧
      (∀ entries, buildEntries packages = .ok entries →
        ∃ ess, List.Forall₂ (fun g es => processGroup g = .ok es)
          (groupByName (sortPkgs packages)) ess ∧ entries = ess.flatten) ∧
      (∀ (g : List Package) (es : List Entry), processGroup g = .ok es →
        es.map (·.exposedName) = specGroupIds g) := by
  intro packages
  obtain ⟨hflat, hne, hconst, hchain⟩ := groupByName_spec (sortPkgs packages)
  refine ⟨?_, hflat, fun g hg => ⟨hne g hg, hconst g hg⟩, hchain, ?_, ?_⟩
  · exact (sortPkgs_sorted packages).imp (fun h => pkgCmp_ne_gt.mp h)
  · intro entries hb
    exact processGroups_ok _ _ hb
  · intro g es h
    exact processGroup_ids h

/-- C1 witness: two versions of crate `a` produce the identifiers `a`
(for 1.2.0) and `a_1_1_0` (for 1.1.0), matching the spec's example. -/
theorem C1_witness :
    [wEntryA12, wEntryA11].map (·.exposedName) = specGroupIds [wA12, wA11] ∧
    specGroupIds [wA12, wA11] = ["a", "a_1_1_0"] :=
  ⟨(C1_sort_group_assign [wA11, wA12]).2.2.2.2.2 [wA12, wA11]
    [wEntryA12, wEntryA11] rfl, by decide⟩

/-! ### Claim C2: uniqueness of exposed identifiers -/

/-- C2 counterexample: two distinct crates (`foo-bar` and `foo_bar`)
whose library targets share the crate name `foo_bar` produce two index
records with the same id and a silently collapsed dependencies map —
global uniqueness of the exposed identifier is not enforced. -/
theorem C2_counterexample :
    materializeOutputs [cxHyphen, cxUnderscore] = .ok cxOut ∧
    cxOut.index.map (·.id) = ["foo_bar", "foo_bar"] ∧
    ¬(cxOut.index.map (·.id)).Nodup ∧
    cxOut.dependencies.map Prod.fst = ["foo_bar"] :=
  ⟨rfl, by decide, by decide, by decide⟩

lemma versionSuffix_length_pos (v : Version) : 0 < (versionSuffix v).length := by
  unfold versionSuffix
  rw [String.length_append, String.length_append, String.length_append,
    String.length_append, String.length_append]
  have h1 : ("_".length) = 1 := rfl
  omega

lemma string_append_ne_self {c s : String} (h : 0 < s.length) :
    c ≠ c ++ s := by
  intro he
  have hlen := congrArg String.length he
  rw [String.length_append] at hlen
  omega

lemma string_append_left_inj (c : String) :
    Function.Injective (fun s => c ++ s) := by
  intro a b h
  have hd := congrArg String.data h
  simp only [String.data_append] at hd
  have h2 := List.append_cancel_left hd
  cases a
  cases b
  exact congrArg String.mk h2

/-- C2 (amended): the dependencies map's keys are always unique (map
semantics — a collision silently overwrites); within one name-group whose
packages share the canonical crate name and whose version suffixes are
pairwise distinct, the assigned identifiers are pairwise distinct and
exactly one of them — the first, maximum-version entry — is the bare
canonical identifier. Across groups uniqueness is not guaranteed (see the
counterexample). -/
theorem C2_amended_identifier_uniqueness :
    (∀ entries : List Entry, ((dependenciesMap entries).map Prod.fst).Nodup) ∧
    (∀ (p : Package) (rest : List Package) (es : List Entry) (c : String),
      processGroup (p :: rest) = .ok es →
      crateNameOf p = some c →
      (∀ q ∈ rest, crateNameOf q = some c) →
      (rest.map (fun q => versionSuffix q.version)).Nodup →
      es.map (·.exposedName) =
        c :: rest.map (fun q => c ++ versionSuffix q.version) ∧
      (es.map (·.exposedName)).Nodup ∧
      (es.map (·.exposedName)).count c = 1) := by
  constructor
  · exact dependenciesMap_keys_nodup
  · intro p rest es c hok hc hrest hnod
    have hids2 : es.map (·.exposedName) =
        c :: rest.map (fun q => c ++ versionSuffix q.version) := by
      rw [processGroup_ids hok]
      simp only [specGroupIds]
      rw [hc]
      simp only [Option.getD_some]
      congr 1
      apply List.map_congr_left
      intro q hq
      rw [hrest q hq]
      rfl
    have hnotmem : c ∉ rest.map (fun q => c ++ versionSuffix q.version) := by
      intro hmem
      obtain ⟨q, hq, heq⟩ := List.mem_map.mp hmem
      exact string_append_ne_self (versionSuffix_length_pos q.version) heq.symm
    have htail : (rest.map (fun q => c ++ versionSuffix q.version)).Nodup := by
      have hcomp : rest.map (fun q => c ++ versionSuffix q.version) =
          (rest.map (fun q => versionSuffix q.version)).map
            (fun s => c ++ s) := by
        rw [List.map_map]
        rfl
      rw [hcomp]
      exact List.Nodup.map (string_append_left_inj c) hnod
    refine ⟨hids2, ?_, ?_⟩
    · rw [hids2]
      exact List.nodup_cons.mpr ⟨hnotmem, htail⟩
    · rw [hids2, List.count_cons_self, List.count_eq_zero.mpr hnotmem]

/-- C2 witness: the group of crate `a` at versions 1.2.0 and 1.1.0 gets
the pairwise-distinct identifiers `a` and `a_1_1_0`, with the bare name
used exactly once, and the concrete dependencies map has unique keys. -/
theorem C2_witness :
    ((dependenciesMap [wEntryA12, wEntryA11]).map Prod.fst).Nodup ∧
    ([wEntryA12, wEntryA11].map (·.exposedName) =
      "a" :: [wA11].map (fun q => "a" ++ versionSuffix q.version) ∧
     ([wEntryA12, wEntryA11].map (·.exposedName)).Nodup ∧
     ([wEntryA12, wEntryA11].map (·.exposedName)).count "a" = 1) :=
  ⟨C2_amended_identifier_uniqueness.1 [wEntryA12, wEntryA11],
   C2_amended_identifier_uniqueness.2 wA12 [wA11] [wEntryA12, wEntryA11] "a"
     rfl rfl (by decide) (by decide)⟩

end TopCratesModel
